import Mathlib

/-!
Verification of the timeline drag-and-drop reconciliation core of the
loopbox-web repository.  The definitions below are a shallow embedding of
the pure functions in `src/lib/video-drop.js` and of the range-add helpers
in `src/components/video-editor.tsx`.  JavaScript numbers used as indices
are modelled as `Int` (they may transiently be negative or out of range),
durations and timestamps as `Rat`, and JavaScript arrays as `List`.
-/

/-- One image overlay bound to a contiguous range of segment ordinals
(fields as in the source objects `{imageVersionId, imageId,
segmentIndexStart, segmentIndexEnd}`). -/
structure ImageGroup where
  imageVersionId : String
  imageId : String
  segmentIndexStart : Int
  segmentIndexEnd : Int
deriving DecidableEq, Inhabited

/-- Result shape of `mergeImageGroupsOnInsert`: the JS function returns
`{groups, error}` or `{groups, merged}`; absent fields are `none`. -/
structure MergeResult where
  groups : List ImageGroup
  merged : Option Bool
  error : Option String
deriving DecidableEq

/-- Embedding of `Array.prototype.filter` when the callback consults the
element index: keeps the elements whose (running) index satisfies `p`. -/
def filterIdxFrom (p : Nat → Bool) : Nat → List α → List α
  | _, [] => []
  | s, a :: t => if p s then a :: filterIdxFrom p (s + 1) t else filterIdxFrom p (s + 1) t

/-- `mergeImageGroupsOnInsert(groups, segmentIndex, imageVersionId, imageId,
segmentsLength)` from `src/lib/video-drop.js`. -/
def mergeImageGroupsOnInsert (groups : List ImageGroup) (segmentIndex : Int)
    (imageVersionId imageId : String) (segmentsLength : Int) : MergeResult :=
  if segmentIndex < 0 ∨ segmentsLength ≤ segmentIndex then
    ⟨groups, none, some "Segment range is invalid"⟩
  else
    match groups.find? (fun g =>
        decide (g.segmentIndexStart ≤ segmentIndex ∧ segmentIndex ≤ g.segmentIndexEnd)) with
    | some overlapping =>
      if overlapping.imageVersionId = imageVersionId then ⟨groups, some true, none⟩
      else ⟨groups, none, some "Image group overlaps an existing range"⟩
    | none =>
      let leftIndex := groups.findIdx? (fun g =>
        decide (g.imageVersionId = imageVersionId ∧ g.segmentIndexEnd = segmentIndex - 1))
      let rightIndex := groups.findIdx? (fun g =>
        decide (g.imageVersionId = imageVersionId ∧ g.segmentIndexStart = segmentIndex + 1))
      match leftIndex, rightIndex with
      | some l, some r =>
        if l ≠ r then
          let left := groups.getD l default
          let right := groups.getD r default
          ⟨filterIdxFrom (fun i => decide (i ≠ l ∧ i ≠ r)) 0 groups ++
            [⟨imageVersionId, imageId, left.segmentIndexStart, right.segmentIndexEnd⟩],
            some true, none⟩
        else
          ⟨groups.mapIdx (fun i g =>
            if i = l then { g with segmentIndexEnd := segmentIndex } else g), some true, none⟩
      | some l, none =>
        ⟨groups.mapIdx (fun i g =>
          if i = l then { g with segmentIndexEnd := segmentIndex } else g), some true, none⟩
      | none, some r =>
        ⟨groups.mapIdx (fun i g =>
          if i = r then { g with segmentIndexStart := segmentIndex } else g), some true, none⟩
      | none, none =>
        ⟨groups ++ [⟨imageVersionId, imageId, segmentIndex, segmentIndex⟩], some false, none⟩

/-- Loop body of `getInsertIndexByTime`: walks the segment durations with an
accumulated `cursor`, returning the offset of the first segment whose
midpoint exceeds the target (or the number of segments walked). -/
def getInsertIndexByTimeAux (t : Rat) : List Rat → Rat → Nat
  | [], _ => 0
  | d :: rest, cursor =>
    if t < cursor + d / 2 then 0 else getInsertIndexByTimeAux t rest (cursor + d) + 1

/-- `getInsertIndexByTime(segments, targetSeconds)` from
`src/lib/video-drop.js`; a segment is represented by its
`durationSeconds`. -/
def getInsertIndexByTime (segments : List Rat) (targetSeconds : Rat) : Nat :=
  if segments.isEmpty then 0 else getInsertIndexByTimeAux targetSeconds segments 0

/-- Cumulative start of segment `i` plus half its duration. -/
def midpointAt (segments : List Rat) (i : Nat) : Rat :=
  (segments.take i).sum + segments.getD i 0 / 2

/-- `moveItemByIndex(items, fromIndex, toIndex)` from
`src/lib/video-drop.js` (insert-mode reorder).  `splice(from, 1)` is the
take/drop decomposition; the removed singleton is `movedL`. -/
def moveItemByIndex (items : List α) (fromIndex toIndex : Int) : List α :=
  if fromIndex = toIndex then items
  else if fromIndex < 0 ∨ (items.length : Int) ≤ fromIndex then items
  else
    let targetIndex : Int := max 0 (min (items.length : Int) toIndex)
    let fi := fromIndex.toNat
    let movedL := (items.drop fi).take 1
    let next := items.take fi ++ items.drop (fi + 1)
    let t := if fromIndex < targetIndex then targetIndex - 1 else targetIndex
    next.take t.toNat ++ movedL ++ next.drop t.toNat

/-- `moveItemByIndexReplace(items, fromIndex, toIndex)` from
`src/lib/video-drop.js` (replace-mode reorder, clamped to `length - 1`,
no shift adjustment). -/
def moveItemByIndexReplace (items : List α) (fromIndex toIndex : Int) : List α :=
  if fromIndex = toIndex then items
  else if fromIndex < 0 ∨ (items.length : Int) ≤ fromIndex then items
  else
    let targetIndex : Int := max 0 (min ((items.length : Int) - 1) toIndex)
    let fi := fromIndex.toNat
    let movedL := (items.drop fi).take 1
    let next := items.take fi ++ items.drop (fi + 1)
    next.take targetIndex.toNat ++ movedL ++ next.drop targetIndex.toNat

/-- JavaScript array-index normalisation used by `slice`/`splice`: a
negative index counts from the end (clamped at 0), a non-negative one is
clamped to the length. -/
def jsIndex (n : Nat) (i : Int) : Nat :=
  if i < 0 then ((n : Int) + i).toNat else min i.toNat n

/-- `xs.slice(s, e)` with JavaScript semantics. -/
def jsSlice (xs : List α) (s e : Int) : List α :=
  ((xs.drop (jsIndex xs.length s)).take (jsIndex xs.length e - jsIndex xs.length s))

/-- `xs.splice(s, dc)` (deletion part) with JavaScript semantics: the list
remaining after removing `dc` elements starting at `s`. -/
def jsSpliceDelete (xs : List α) (s dc : Int) : List α :=
  let sn := jsIndex xs.length s
  xs.take sn ++ xs.drop (sn + min dc.toNat (xs.length - sn))

/-- `xs.splice(s, 0, ...block)` with JavaScript semantics: inserts `block`
at (normalised) position `s`. -/
def jsSpliceInsert (xs : List α) (s : Int) (block : List α) : List α :=
  let sn := jsIndex xs.length s
  xs.take sn ++ block ++ xs.drop sn

/-- One `groups.forEach` iteration of `moveImageGroupsBySlot`: writes group
number `idx` into every slot covered by `g` (out-of-range slot positions
are skipped by the bounds test in the source loop). -/
def writeGroupSlots (slots : List (Option Nat)) (idx : Nat) (g : ImageGroup) :
    List (Option Nat) :=
  slots.mapIdx (fun i v =>
    if g.segmentIndexStart ≤ (i : Int) ∧ (i : Int) ≤ g.segmentIndexEnd then some idx else v)

/-- The slot array of `moveImageGroupsBySlot`: one entry per segment,
holding the owning group's array index (later groups overwrite earlier). -/
def buildSlots (groups : List ImageGroup) (len : Nat) : List (Option Nat) :=
  groups.enum.foldl (fun slots p => writeGroupSlots slots p.1 p.2) (List.replicate len none)

/-- The run-scanning loop of `moveImageGroupsBySlot`: walks the slot list
(with a trailing `null` sentinel), emitting one group per maximal run of an
identical non-null owner index.  `i` is the loop counter, `currentIdx` and
`startIndex` the two mutable scan variables, `acc` the `rebuilt` array. -/
def rebuildAux (groups : List ImageGroup) :
    List (Option Nat) → Nat → Option Nat → Option Nat → List ImageGroup → List ImageGroup
  | [], i, currentIdx, startIndex, acc =>
    match currentIdx, startIndex with
    | some c, some s =>
      acc ++ [⟨(groups.getD c default).imageVersionId, (groups.getD c default).imageId,
        (s : Int), ((i - 1 : Nat) : Int)⟩]
    | _, _ => acc
  | slot :: rest, i, currentIdx, startIndex, acc =>
    if slot = currentIdx then
      rebuildAux groups rest (i + 1) currentIdx startIndex acc
    else
      rebuildAux groups rest (i + 1) slot (if slot.isSome then some i else none)
        (match currentIdx, startIndex with
        | some c, some s =>
          acc ++ [⟨(groups.getD c default).imageVersionId, (groups.getD c default).imageId,
            (s : Int), ((i - 1 : Nat) : Int)⟩]
        | _, _ => acc)

/-- The callback of the final `reduce` of `moveImageGroupsBySlot`: appends
`g` to the accumulator, or, when the accumulator's last group shares its
`imageVersionId`, extends that last group's end instead. -/
def coalesceStep (acc : List ImageGroup) (g : ImageGroup) : List ImageGroup :=
  match acc.getLast? with
  | some last =>
    if last.imageVersionId = g.imageVersionId then
      acc.dropLast ++ [{ last with segmentIndexEnd := g.segmentIndexEnd }]
    else acc ++ [g]
  | none => acc ++ [g]

/-- The final `reduce` of `moveImageGroupsBySlot`: coalesces adjacent
rebuilt groups that share an `imageVersionId`. -/
def coalesce (rebuilt : List ImageGroup) : List ImageGroup :=
  rebuilt.foldl coalesceStep []

/-- `moveImageGroupsBySlot(groups, groupIndex, targetStart, segmentsLength)`
from `src/lib/video-drop.js`. -/
def moveImageGroupsBySlot (groups : List ImageGroup) (groupIndex targetStart segmentsLength : Int) :
    List ImageGroup :=
  if segmentsLength ≤ 0 then groups
  else if groupIndex < 0 ∨ (groups.length : Int) ≤ groupIndex then groups
  else
    let active := groups.getD groupIndex.toNat default
    let blockLen : Int := max 1 (active.segmentIndexEnd - active.segmentIndexStart + 1)
    let maxStart : Int := max 0 (segmentsLength - blockLen)
    let nextStart : Int := max 0 (min maxStart targetStart)
    let len := segmentsLength.toNat
    let slots := buildSlots groups len
    let block := jsSlice slots active.segmentIndexStart (active.segmentIndexStart + blockLen)
    let slots2 := jsSpliceDelete slots active.segmentIndexStart blockLen
    let slots3 := jsSpliceInsert slots2 nextStart block
    coalesce (rebuildAux groups slots3 0 none none [])

/-- JavaScript `s.split(c)` for a single-character separator, on the
character list of the string. -/
def splitOnChar (c : Char) : List Char → List (List Char)
  | [] => [[]]
  | a :: t =>
    let r := splitOnChar c t
    if a = c then [] :: r
    else
      match r with
      | h :: t2 => (a :: h) :: t2
      | [] => [[a]]

/-- The two channels of a DOM `DataTransfer` that
`parseDragDataTransfer` reads: `custom` is `getData(mimeType)` and `plain`
is `getData("text/plain")`; `getData` yields `""` when a channel is
absent. -/
structure DataTransfer where
  custom : String
  plain : String
deriving DecidableEq

/-- The `{type, id}` object produced by the drag-payload decoder. -/
structure DragData where
  type : String
  id : String
deriving DecidableEq

/-- `parseDragDataTransfer(dataTransfer, mimeType)` from
`src/lib/video-drop.js`.  `jsonParse` models `JSON.parse` specialised to
the drag-payload object shape: it returns `none` exactly when
`JSON.parse` throws on its argument (the `catch` branch). -/
def parseDragDataTransfer (jsonParse : String → Option DragData) (dt : DataTransfer) :
    Option DragData :=
  if dt.custom ≠ "" then jsonParse dt.custom
  else if dt.plain = "" then none
  else
    match splitOnChar ':' dt.plain.data with
    | t :: i :: _ =>
      if t.isEmpty ∨ i.isEmpty then none else some ⟨String.mk t, String.mk i⟩
    | _ => none

/-- Modelled from the spec: the decoder as the claim describes it —
"on parse failure or absence of the structured form, it falls back to
splitting the plain-text form on the first colon into `{type, id}`".
Written to compare against `parseDragDataTransfer` (the source behaviour),
which does not fall back on parse failure and keeps only the first two
colon-separated fields. -/
def parseDragDataTransferClaim (jsonParse : String → Option DragData) (dt : DataTransfer) :
    Option DragData :=
  match (if dt.custom ≠ "" then jsonParse dt.custom else none) with
  | some v => some v
  | none =>
    if dt.plain = "" then none
    else
      match splitOnChar ':' dt.plain.data with
      | t :: rest =>
        if rest.isEmpty then none
        else
          let i := (rest.intersperse [':']).flatten
          if t.isEmpty ∨ i.isEmpty then none else some ⟨String.mk t, String.mk i⟩
      | [] => none

/-- A catalog image version as used by `addImageGroupRange` in
`src/components/video-editor.tsx`. -/
structure ImageVersion where
  id : String
  imageId : String
deriving DecidableEq

/-- `isRangeAvailable(start, end)` from `src/components/video-editor.tsx`:
true when `[start, end]` intersects no existing group. -/
def isRangeAvailable (imageGroups : List ImageGroup) (start endIdx : Int) : Bool :=
  !(imageGroups.any (fun g =>
    !(decide (endIdx < g.segmentIndexStart) || decide (start > g.segmentIndexEnd))))

/-- Outcome of `addImageGroupRange`: either the toast message of the
rejecting branch, or the updated image-group list passed to state. -/
inductive RangeAddResult where
  | err (message : String) : RangeAddResult
  | ok (groups : List ImageGroup) : RangeAddResult
deriving DecidableEq

/-- Whether a `RangeAddResult` is the rejecting outcome. -/
def RangeAddResult.isErr : RangeAddResult → Bool
  | .err _ => true
  | .ok _ => false

/-- `addImageGroupRange(versionId, start, end)` from
`src/components/video-editor.tsx`, with the component state it reads
(`imageGroups`, `imageVersions`, `segments.length`) passed explicitly. -/
def addImageGroupRange (imageGroups : List ImageGroup) (imageVersions : List ImageVersion)
    (segmentsLength : Int) (versionId : String) (start endIdx : Int) : RangeAddResult :=
  if start < 0 ∨ endIdx < 0 ∨ start > endIdx ∨ segmentsLength ≤ endIdx then
    .err "Segment range is invalid"
  else if !(isRangeAvailable imageGroups start endIdx) then
    .err "Image group overlaps an existing range"
  else
    match imageVersions.find? (fun v => decide (v.id = versionId)) with
    | none => .err "Image version not found"
    | some v => .ok (imageGroups ++ [⟨v.id, v.imageId, start, endIdx⟩])

/-- Two image groups occupy disjoint segment ranges. -/
def disjointG (a b : ImageGroup) : Prop :=
  a.segmentIndexEnd < b.segmentIndexStart ∨ b.segmentIndexEnd < a.segmentIndexStart

instance : DecidableRel disjointG := fun a b => by unfold disjointG; infer_instance

/-- A group's range contains the segment index `i`. -/
def coversIdx (g : ImageGroup) (i : Int) : Prop :=
  g.segmentIndexStart ≤ i ∧ i ≤ g.segmentIndexEnd

instance : Decidable (coversIdx g i) := by unfold coversIdx; infer_instance

/-- The global image-group invariant: every range lies within
`[0, segmentCount - 1]` (with `start ≤ end`), and no two groups overlap. -/
def groupsInvariant (groups : List ImageGroup) (segmentCount : Int) : Prop :=
  (∀ g ∈ groups, 0 ≤ g.segmentIndexStart ∧ g.segmentIndexStart ≤ g.segmentIndexEnd ∧
    g.segmentIndexEnd < segmentCount) ∧
  List.Pairwise disjointG groups

instance : Decidable (groupsInvariant groups segmentCount) := by
  unfold groupsInvariant; infer_instance

/- ### Helper lemmas: time/index arithmetic -/

theorem midpointAt_cons_zero (d : Rat) (rest : List Rat) : midpointAt (d :: rest) 0 = d / 2 := by
  simp [midpointAt]

theorem midpointAt_cons_succ (d : Rat) (rest : List Rat) (j : Nat) :
    midpointAt (d :: rest) (j + 1) = d + midpointAt rest j := by
  simp [midpointAt]; ring

theorem getInsertIndexByTimeAux_spec (t : Rat) (segs : List Rat) (cursor : Rat) :
    getInsertIndexByTimeAux t segs cursor ≤ segs.length ∧
    (∀ i, i < getInsertIndexByTimeAux t segs cursor → ¬ t < cursor + midpointAt segs i) ∧
    (getInsertIndexByTimeAux t segs cursor < segs.length →
      t < cursor + midpointAt segs (getInsertIndexByTimeAux t segs cursor)) := by
  induction segs generalizing cursor with
  | nil => simp [getInsertIndexByTimeAux]
  | cons d rest ih =>
    by_cases h : t < cursor + d / 2
    · refine ⟨by simp [getInsertIndexByTimeAux, h], ?_, ?_⟩
      · intro i hi
        simp [getInsertIndexByTimeAux, h] at hi
      · intro _
        have hz : getInsertIndexByTimeAux t (d :: rest) cursor = 0 := by
          simp [getInsertIndexByTimeAux, h]
        rw [hz, midpointAt_cons_zero]
        exact h
    · obtain ⟨ih1, ih2, ih3⟩ := ih (cursor + d)
      have hval : getInsertIndexByTimeAux t (d :: rest) cursor =
          getInsertIndexByTimeAux t rest (cursor + d) + 1 := by
        simp [getInsertIndexByTimeAux, h]
      refine ⟨by simp [hval]; omega, ?_, ?_⟩
      · intro i hi
        rw [hval] at hi
        match i with
        | 0 =>
          rw [midpointAt_cons_zero]
          exact h
        | j + 1 =>
          rw [midpointAt_cons_succ]
          have := ih2 j (by omega)
          intro hc
          exact this (by linarith)
      · intro hlt
        rw [hval] at hlt ⊢
        rw [midpointAt_cons_succ]
        have := ih3 (by simpa using Nat.lt_of_succ_lt_succ hlt)
        linarith

/-- C6: `getInsertIndexByTime` returns the first index whose midpoint
(cumulative start plus half the duration) exceeds the target time, and the
segment count when no midpoint exceeds it; including the three literal
scenarios from the spec. -/
theorem getInsertIndexByTime_spec (segments : List Rat) (t : Rat) :
    getInsertIndexByTime segments t ≤ segments.length ∧
    (∀ i, i < getInsertIndexByTime segments t → ¬ t < midpointAt segments i) ∧
    (getInsertIndexByTime segments t < segments.length →
      t < midpointAt segments (getInsertIndexByTime segments t)) ∧
    ((∀ i, i < segments.length → ¬ t < midpointAt segments i) →
      getInsertIndexByTime segments t = segments.length) ∧
    getInsertIndexByTime [10, 10] 4 = 0 ∧
    getInsertIndexByTime [10, 10] 6 = 1 ∧
    getInsertIndexByTime [8, 12] 25 = 2 := by
  have hmain : getInsertIndexByTime segments t ≤ segments.length ∧
      (∀ i, i < getInsertIndexByTime segments t → ¬ t < midpointAt segments i) ∧
      (getInsertIndexByTime segments t < segments.length →
        t < midpointAt segments (getInsertIndexByTime segments t)) := by
    unfold getInsertIndexByTime
    by_cases he : segments.isEmpty
    · have : segments = [] := List.isEmpty_iff.mp he
      subst this; simp
    · obtain ⟨h1, h2, h3⟩ := getInsertIndexByTimeAux_spec t segments 0
      simp only [he, if_false]
      exact ⟨h1, fun i hi => by simpa using h2 i hi, fun hlt => by simpa using h3 hlt⟩
  obtain ⟨h1, h2, h3⟩ := hmain
  refine ⟨h1, h2, h3, ?_,
    by norm_num [getInsertIndexByTime, getInsertIndexByTimeAux],
    by norm_num [getInsertIndexByTime, getInsertIndexByTimeAux],
    by norm_num [getInsertIndexByTime, getInsertIndexByTimeAux]⟩
  intro hall
  rcases Nat.lt_or_ge (getInsertIndexByTime segments t) segments.length with hlt | hge
  · exact absurd (h3 hlt) (hall _ hlt)
  · omega

/- ### Helper lemmas: list moves (C9) -/

theorem move_core_perm {α : Type} (l : List α) (fi tn : Nat) (hfi : fi < l.length) :
    ((l.take fi ++ l.drop (fi + 1)).take tn ++ (l.drop fi).take 1 ++
      (l.take fi ++ l.drop (fi + 1)).drop tn).Perm l := by
  have hdrop : l.drop fi = l[fi] :: l.drop (fi + 1) := by
    rw [List.drop_eq_getElem_cons hfi]
  have hmoved : (l.drop fi).take 1 = [l[fi]] := by
    rw [hdrop, List.take_succ_cons, List.take_zero]
  rw [hmoved]
  have h0 : (l.take fi ++ l.drop (fi + 1)).take tn ++ [l[fi]] ++
      (l.take fi ++ l.drop (fi + 1)).drop tn =
      (l.take fi ++ l.drop (fi + 1)).take tn ++ l[fi] ::
      (l.take fi ++ l.drop (fi + 1)).drop tn := by simp
  have p1 : List.Perm
      ((l.take fi ++ l.drop (fi + 1)).take tn ++ l[fi] ::
        (l.take fi ++ l.drop (fi + 1)).drop tn)
      (l[fi] :: ((l.take fi ++ l.drop (fi + 1)).take tn ++
        (l.take fi ++ l.drop (fi + 1)).drop tn)) := List.perm_middle
  rw [List.take_append_drop] at p1
  have p2 : List.Perm (l.take fi ++ l[fi] :: l.drop (fi + 1))
      (l[fi] :: (l.take fi ++ l.drop (fi + 1))) := List.perm_middle
  have p3 : List.Perm l (l[fi] :: (l.take fi ++ l.drop (fi + 1))) := by
    conv_lhs => rw [← List.take_append_drop fi l, hdrop]
    exact p2
  rw [h0]
  exact p1.trans p3.symm

/-- C9: both `moveItemByIndex` and `moveItemByIndexReplace` return a
permutation of the input list (same length, same multiset of elements) for
every pair of indices, in-range or not. -/
theorem moveItemByIndex_perm {α : Type} (items : List α) (fromIndex toIndex : Int) :
    (moveItemByIndex items fromIndex toIndex).Perm items ∧
    (moveItemByIndexReplace items fromIndex toIndex).Perm items := by
  constructor
  · unfold moveItemByIndex
    split_ifs with h1 h2
    · exact List.Perm.refl items
    · exact List.Perm.refl items
    · have hfi : fromIndex.toNat < items.length := by omega
      exact move_core_perm items fromIndex.toNat _ hfi
  · unfold moveItemByIndexReplace
    split_ifs with h1 h2
    · exact List.Perm.refl items
    · exact List.Perm.refl items
    · have hfi : fromIndex.toNat < items.length := by omega
      exact move_core_perm items fromIndex.toNat _ hfi

/-- C10: `moveImageGroupsBySlot` with a non-positive segment count or an
out-of-range group index returns the input collection unchanged (a silent
rejection: the return type carries no error value). -/
theorem moveImageGroupsBySlot_silentGuards (groups : List ImageGroup)
    (groupIndex targetStart segmentsLength : Int)
    (h : segmentsLength ≤ 0 ∨ groupIndex < 0 ∨ (groups.length : Int) ≤ groupIndex) :
    moveImageGroupsBySlot groups groupIndex targetStart segmentsLength = groups := by
  unfold moveImageGroupsBySlot
  by_cases h1 : segmentsLength ≤ 0
  · simp [h1]
  · have h2 : groupIndex < 0 ∨ (groups.length : Int) ≤ groupIndex := by tauto
    simp [h1, h2]

theorem moveImageGroupsBySlot_silentGuards_witness :
    moveImageGroupsBySlot [⟨"A", "a", 0, 0⟩] (-1) 0 3 = [⟨"A", "a", 0, 0⟩] :=
  moveImageGroupsBySlot_silentGuards [⟨"A", "a", 0, 0⟩] (-1) 0 3 (by decide)

/-- C4: the two literal relocation scenarios: `A[0,1], B[2,2], C[3,3]`
with `B` moved to start 0 yields `B[0,0], A[1,2], C[3,3]`; and
`A[0,0], B[1,1], A[2,2]` with the second `A` moved to start 1 yields
`A[0,1], B[2,2]` (adjacent same-version groups coalesced). -/
theorem moveImageGroupsBySlot_scenarios :
    moveImageGroupsBySlot [⟨"A", "a", 0, 1⟩, ⟨"B", "b", 2, 2⟩, ⟨"C", "c", 3, 3⟩] 1 0 4 =
      [⟨"B", "b", 0, 0⟩, ⟨"A", "a", 1, 2⟩, ⟨"C", "c", 3, 3⟩] ∧
    moveImageGroupsBySlot [⟨"A", "a", 0, 0⟩, ⟨"B", "b", 1, 1⟩, ⟨"A", "a2", 2, 2⟩] 2 1 3 =
      [⟨"A", "a", 0, 1⟩, ⟨"B", "b", 2, 2⟩] := by
  constructor <;> decide

/- ### Drag payload decoding (C8) -/

/-- C8 counterexample: on a malformed structured payload with a valid
plain-text fallback available, the source decoder returns `null` (it does
not fall back on parse failure), while the claimed behaviour
(`parseDragDataTransferClaim`) falls back and decodes the plain text. -/
theorem parseDragDataTransfer_counterexample :
    parseDragDataTransfer (fun _ => none) ⟨"x", "image-version:iv-2"⟩ = none ∧
    parseDragDataTransferClaim (fun _ => none) ⟨"x", "image-version:iv-2"⟩ =
      some ⟨"image-version", "iv-2"⟩ ∧
    parseDragDataTransfer (fun _ => none) ⟨"x", "image-version:iv-2"⟩ ≠
      parseDragDataTransferClaim (fun _ => none) ⟨"x", "image-version:iv-2"⟩ := by
  refine ⟨by decide, by decide, by decide⟩

/-- C8 (amended): the decoder attempts the structured form first and, when
the structured channel is present, never falls back: a malformed structured
payload decodes to `null`.  Only when the structured channel is absent does
it split the plain text on `:`, keeping the first two fields as
`{type, id}` (content after a second `:` is discarded), and it returns
`null` when either field is empty or missing. -/
theorem parseDragDataTransfer_amended (jsonParse : String → Option DragData)
    (dt : DataTransfer) :
    (dt.custom ≠ "" → parseDragDataTransfer jsonParse dt = jsonParse dt.custom) ∧
    (dt.custom ≠ "" → jsonParse dt.custom = none →
      parseDragDataTransfer jsonParse dt = none) ∧
    (dt.custom = "" → dt.plain = "" → parseDragDataTransfer jsonParse dt = none) ∧
    (dt.custom = "" → dt.plain ≠ "" → ∀ t i rest,
      splitOnChar ':' dt.plain.data = t :: i :: rest →
      ((t = [] ∨ i = []) → parseDragDataTransfer jsonParse dt = none) ∧
      (t ≠ [] → i ≠ [] →
        parseDragDataTransfer jsonParse dt = some ⟨String.mk t, String.mk i⟩)) ∧
    (dt.custom = "" → dt.plain ≠ "" → ∀ t, splitOnChar ':' dt.plain.data = [t] →
      parseDragDataTransfer jsonParse dt = none) ∧
    parseDragDataTransfer jsonParse ⟨"", "image-version:iv-2"⟩ =
      some ⟨"image-version", "iv-2"⟩ := by
  refine ⟨?_, ?_, ?_, ?_, ?_, ?_⟩
  · intro h; simp [parseDragDataTransfer, h]
  · intro h h2; simp [parseDragDataTransfer, h, h2]
  · intro h h2; simp [parseDragDataTransfer, h, h2]
  · intro h h2 t i rest hsplit
    have hred : parseDragDataTransfer jsonParse dt =
        (if t.isEmpty ∨ i.isEmpty then none else some ⟨String.mk t, String.mk i⟩) := by
      unfold parseDragDataTransfer
      rw [if_neg (by simp [h]), if_neg h2, hsplit]
    constructor
    · intro hemp
      rw [hred, if_pos (by rcases hemp with rfl | rfl <;> simp)]
    · intro ht hi
      rw [hred, if_neg (by simp [List.isEmpty_iff]; exact ⟨ht, hi⟩)]
  · intro h h2 t hsplit
    unfold parseDragDataTransfer
    rw [if_neg (by simp [h]), if_neg h2, hsplit]
  · rfl

theorem parseDragDataTransfer_amended_witness :
    parseDragDataTransfer (fun _ => none) ⟨"", "image-version:iv:2"⟩ =
      some ⟨"image-version", "iv"⟩ :=
  ((parseDragDataTransfer_amended (fun _ => none)
      ⟨"", "image-version:iv:2"⟩).2.2.2.1 rfl (by decide)
    "image-version".data "iv".data ["2".data] (by decide)).2
    (by decide) (by decide)

/- ### Overlap uniqueness under the invariant -/

theorem coversIdx_unique (groups : List ImageGroup) (segmentCount : Int)
    (hinv : groupsInvariant groups segmentCount) (a b : ImageGroup)
    (ha : a ∈ groups) (hb : b ∈ groups) (i : Int)
    (hca : coversIdx a i) (hcb : coversIdx b i) : a = b := by
  obtain ⟨hbnd, hp⟩ := hinv
  rw [List.pairwise_iff_getElem] at hp
  obtain ⟨ia, hia, ha2⟩ := List.mem_iff_getElem.mp ha
  obtain ⟨ib, hib, hb2⟩ := List.mem_iff_getElem.mp hb
  rcases Nat.lt_trichotomy ia ib with h | h | h
  · have hd := hp ia ib hia hib h
    rw [ha2, hb2] at hd
    unfold disjointG at hd
    unfold coversIdx at hca hcb
    omega
  · subst h
    rw [← ha2, ← hb2]
  · have hd := hp ib ia hib hia h
    rw [ha2, hb2] at hd
    unfold disjointG at hd
    unfold coversIdx at hca hcb
    omega

/- ### Merge-on-insert error paths (C2) -/

/-- C2: both validation failures of `mergeImageGroupsOnInsert` — a target
index outside `[0, segmentCount)`, or a target index inside an existing
group of a different `imageVersionId` — return the original collection
unchanged together with a human-readable error string, and every error
outcome leaves the collection unchanged (no partial mutation). -/
theorem mergeImageGroupsOnInsert_errors (groups : List ImageGroup) (segmentIndex : Int)
    (imageVersionId imageId : String) (segmentsLength : Int) :
    ((segmentIndex < 0 ∨ segmentsLength ≤ segmentIndex) →
      mergeImageGroupsOnInsert groups segmentIndex imageVersionId imageId segmentsLength =
        ⟨groups, none, some "Segment range is invalid"⟩) ∧
    (0 ≤ segmentIndex → segmentIndex < segmentsLength →
      (∃ g ∈ groups, coversIdx g segmentIndex) →
      (∀ g ∈ groups, coversIdx g segmentIndex → g.imageVersionId ≠ imageVersionId) →
      mergeImageGroupsOnInsert groups segmentIndex imageVersionId imageId segmentsLength =
        ⟨groups, none, some "Image group overlaps an existing range"⟩) ∧
    (∀ msg, (mergeImageGroupsOnInsert groups segmentIndex imageVersionId imageId
        segmentsLength).error = some msg →
      (mergeImageGroupsOnInsert groups segmentIndex imageVersionId imageId
        segmentsLength).groups = groups) := by
  refine ⟨?_, ?_, ?_⟩
  · intro h
    simp only [mergeImageGroupsOnInsert]
    rw [if_pos h]
  · intro h1 h2 hex hall
    obtain ⟨g, hg, hc⟩ := hex
    have hfind : (groups.find? (fun g =>
        decide (g.segmentIndexStart ≤ segmentIndex ∧
          segmentIndex ≤ g.segmentIndexEnd))).isSome := by
      rw [List.find?_isSome]
      exact ⟨g, hg, by simp [hc.1, hc.2]⟩
    obtain ⟨g₀, hfind⟩ := Option.isSome_iff_exists.mp hfind
    have hg₀mem := List.mem_of_find?_eq_some hfind
    have hcov : coversIdx g₀ segmentIndex := by
      have := List.find?_some hfind
      simpa [coversIdx] using this
    simp only [mergeImageGroupsOnInsert]
    rw [if_neg (by omega)]
    simp only [hfind]
    rw [if_neg (hall g₀ hg₀mem hcov)]
  · intro msg
    by_cases hguard : segmentIndex < 0 ∨ segmentsLength ≤ segmentIndex
    · simp [mergeImageGroupsOnInsert, hguard]
    · rcases hfind : groups.find? (fun g =>
          decide (g.segmentIndexStart ≤ segmentIndex ∧
            segmentIndex ≤ g.segmentIndexEnd)) with _ | g₀
      · simp only [mergeImageGroupsOnInsert, hguard, if_false, hfind]
        intro hmsg
        revert hmsg
        split <;> (try split_ifs) <;> simp
      · simp only [mergeImageGroupsOnInsert, hguard, if_false, hfind]
        split_ifs <;> simp

theorem mergeImageGroupsOnInsert_errors_witness :
    mergeImageGroupsOnInsert [⟨"B", "b", 0, 0⟩] 0 "A" "a" 1 =
      ⟨[⟨"B", "b", 0, 0⟩], none, some "Image group overlaps an existing range"⟩ :=
  (mergeImageGroupsOnInsert_errors [⟨"B", "b", 0, 0⟩] 0 "A" "a" 1).2.1
    (by decide) (by decide) ⟨⟨"B", "b", 0, 0⟩, by decide, by decide⟩
    (by decide)

/- ### Merge-on-insert idempotence (C5) -/

/-- C5: dropping a version onto an index already covered by a group of the
same version is a no-op success: on an invariant-satisfying collection the
call returns `merged: true` with the collection unchanged (no duplicate
group created). -/
theorem mergeImageGroupsOnInsert_idempotent (groups : List ImageGroup)
    (segmentIndex : Int) (imageVersionId imageId : String) (segmentsLength : Int)
    (hinv : groupsInvariant groups segmentsLength) (g : ImageGroup) (hg : g ∈ groups)
    (hc : coversIdx g segmentIndex) (hv : g.imageVersionId = imageVersionId) :
    mergeImageGroupsOnInsert groups segmentIndex imageVersionId imageId segmentsLength =
      ⟨groups, some true, none⟩ := by
  have hb := hinv.1 g hg
  have hguard : ¬(segmentIndex < 0 ∨ segmentsLength ≤ segmentIndex) := by
    unfold coversIdx at hc; omega
  have hfind : (groups.find? (fun g =>
      decide (g.segmentIndexStart ≤ segmentIndex ∧
        segmentIndex ≤ g.segmentIndexEnd))).isSome := by
    rw [List.find?_isSome]
    exact ⟨g, hg, by simp [hc.1, hc.2]⟩
  obtain ⟨g₀, hfind⟩ := Option.isSome_iff_exists.mp hfind
  have hg₀mem := List.mem_of_find?_eq_some hfind
  have hcov : coversIdx g₀ segmentIndex := by
    have := List.find?_some hfind
    simpa [coversIdx] using this
  have heq : g₀ = g :=
    coversIdx_unique groups segmentsLength hinv g₀ g hg₀mem hg segmentIndex hcov hc
  simp only [mergeImageGroupsOnInsert]
  rw [if_neg hguard]
  simp only [hfind]
  rw [if_pos (by rw [heq, hv])]

theorem mergeImageGroupsOnInsert_idempotent_witness :
    mergeImageGroupsOnInsert [⟨"A", "a", 0, 1⟩] 1 "A" "x" 2 =
      ⟨[⟨"A", "a", 0, 1⟩], some true, none⟩ :=
  mergeImageGroupsOnInsert_idempotent [⟨"A", "a", 0, 1⟩] 1 "A" "x" 2
    (by decide) ⟨"A", "a", 0, 1⟩ (by decide) (by decide) rfl

/- ### Range add (C7) -/

/-- C7: `addImageGroupRange` rejects `start > end`, any out-of-bounds
index, and any intersection with an existing group (same version
included); a successful call appends exactly one new `[start, end]` group
for the looked-up version and never merges. -/
theorem addImageGroupRange_spec (imageGroups : List ImageGroup)
    (imageVersions : List ImageVersion) (segmentsLength : Int) (versionId : String)
    (start endIdx : Int) :
    (start > endIdx →
      (addImageGroupRange imageGroups imageVersions segmentsLength versionId start
        endIdx).isErr = true) ∧
    ((start < 0 ∨ segmentsLength ≤ start) →
      (addImageGroupRange imageGroups imageVersions segmentsLength versionId start
        endIdx).isErr = true) ∧
    ((endIdx < 0 ∨ segmentsLength ≤ endIdx) →
      (addImageGroupRange imageGroups imageVersions segmentsLength versionId start
        endIdx).isErr = true) ∧
    ((∃ g ∈ imageGroups, ¬(endIdx < g.segmentIndexStart ∨ start > g.segmentIndexEnd)) →
      (addImageGroupRange imageGroups imageVersions segmentsLength versionId start
        endIdx).isErr = true) ∧
    (∀ gs, addImageGroupRange imageGroups imageVersions segmentsLength versionId start
        endIdx = .ok gs →
      ∃ v ∈ imageVersions, v.id = versionId ∧
        gs = imageGroups ++ [⟨v.id, v.imageId, start, endIdx⟩]) := by
  refine ⟨?_, ?_, ?_, ?_, ?_⟩
  · intro h
    simp only [addImageGroupRange]
    rw [if_pos (by omega)]
    rfl
  · intro h
    simp only [addImageGroupRange]
    rw [if_pos (by omega)]
    rfl
  · intro h
    simp only [addImageGroupRange]
    rw [if_pos (by omega)]
    rfl
  · intro h
    obtain ⟨g, hg, hover⟩ := h
    have hany : imageGroups.any (fun g =>
        !(decide (endIdx < g.segmentIndexStart) || decide (start > g.segmentIndexEnd))) =
        true := by
      rw [List.any_eq_true]
      refine ⟨g, hg, ?_⟩
      simpa using hover
    have havail : isRangeAvailable imageGroups start endIdx = false := by
      unfold isRangeAvailable
      rw [hany]
      rfl
    simp only [addImageGroupRange]
    split_ifs with h1 h2
    · rfl
    · rfl
    · exact absurd (by rw [havail]; rfl) h2
  · intro gs h
    simp only [addImageGroupRange] at h
    split_ifs at h with h1 h2
    rcases hfind : imageVersions.find? (fun v => decide (v.id = versionId)) with _ | v
    · rw [hfind] at h
      exact RangeAddResult.noConfusion h
    · rw [hfind] at h
      simp only [RangeAddResult.ok.injEq] at h
      refine ⟨v, List.mem_of_find?_eq_some hfind, ?_, h.symm⟩
      have := List.find?_some hfind
      simpa using this

theorem addImageGroupRange_spec_witness :
    (addImageGroupRange [⟨"A", "a", 0, 1⟩] [⟨"A", "a"⟩] 4 "A" 1 2).isErr = true :=
  (addImageGroupRange_spec [⟨"A", "a", 0, 1⟩] [⟨"A", "a"⟩] 4 "A" 1 2).2.2.2.1
    ⟨⟨"A", "a", 0, 1⟩, by decide, by decide⟩

/- ### Helper lemmas: indexed filtering and positional decomposition (C3) -/

theorem filterIdxFrom_append (p : Nat → Bool) (xs ys : List α) (s : Nat) :
    filterIdxFrom p s (xs ++ ys) =
      filterIdxFrom p s xs ++ filterIdxFrom p (s + xs.length) ys := by
  induction xs generalizing s with
  | nil => simp [filterIdxFrom]
  | cons a t ih =>
    have hlen : s + (a :: t).length = s + 1 + t.length := by
      simp only [List.length_cons]; omega
    rw [hlen]
    have harith : s + 1 + t.length = (s + 1) + t.length := rfl
    by_cases h : p s
    · have e1 : filterIdxFrom p s ((a :: t) ++ ys) =
          a :: filterIdxFrom p (s + 1) (t ++ ys) := by
        show (if p s then a :: filterIdxFrom p (s + 1) (t ++ ys)
          else filterIdxFrom p (s + 1) (t ++ ys)) = _
        rw [if_pos h]
      have e2 : filterIdxFrom p s (a :: t) = a :: filterIdxFrom p (s + 1) t := by
        show (if p s then a :: filterIdxFrom p (s + 1) t
          else filterIdxFrom p (s + 1) t) = _
        rw [if_pos h]
      rw [e1, e2, ih (s + 1)]
      rfl
    · have e1 : filterIdxFrom p s ((a :: t) ++ ys) =
          filterIdxFrom p (s + 1) (t ++ ys) := by
        show (if p s then a :: filterIdxFrom p (s + 1) (t ++ ys)
          else filterIdxFrom p (s + 1) (t ++ ys)) = _
        rw [if_neg h]
      have e2 : filterIdxFrom p s (a :: t) = filterIdxFrom p (s + 1) t := by
        show (if p s then a :: filterIdxFrom p (s + 1) t
          else filterIdxFrom p (s + 1) t) = _
        rw [if_neg h]
      rw [e1, e2, ih (s + 1)]

theorem filterIdxFrom_all_keep (p : Nat → Bool) (xs : List α) (s : Nat)
    (h : ∀ i, s ≤ i → i < s + xs.length → p i = true) : filterIdxFrom p s xs = xs := by
  induction xs generalizing s with
  | nil => rfl
  | cons a t ih =>
    have hs : p s = true := h s le_rfl (by simp)
    simp only [filterIdxFrom, hs, if_true]
    rw [ih (s + 1)]
    intro i h1 h2
    refine h i (by omega) ?_
    simp only [List.length_cons]
    omega

theorem filterIdxFrom_single_drop (p : Nat → Bool) (a : α) (s : Nat) (h : p s = false) :
    filterIdxFrom p s [a] = [] := by
  simp [filterIdxFrom, h]

theorem list_decomp_two (xs : List α) (a b : Nat) (hab : a < b) (hb : b < xs.length) :
    xs = xs.take a ++ [xs[a]] ++ ((xs.drop (a + 1)).take (b - (a + 1))) ++ [xs[b]] ++
      xs.drop (b + 1) := by
  have ha : a < xs.length := lt_trans hab hb
  have h2 : xs.drop (a + 1) =
      ((xs.drop (a + 1)).take (b - (a + 1))) ++ [xs[b]] ++ xs.drop (b + 1) := by
    conv_lhs => rw [← List.take_append_drop (b - (a + 1)) (xs.drop (a + 1))]
    rw [List.drop_drop]
    have hbb : a + 1 + (b - (a + 1)) = b := by omega
    rw [hbb, List.drop_eq_getElem_cons hb]
    simp only [List.append_assoc, List.singleton_append]
  conv_lhs => rw [← List.take_append_drop a xs, List.drop_eq_getElem_cons ha, h2]
  simp only [List.append_assoc, List.singleton_append, List.cons_append, List.nil_append]

theorem filterTwo_eq (xs : List α) (a b : Nat) (hab : a < b) (hb : b < xs.length) :
    filterIdxFrom (fun i => decide (i ≠ a ∧ i ≠ b)) 0 xs =
      xs.take a ++ ((xs.drop (a + 1)).take (b - (a + 1))) ++ xs.drop (b + 1) := by
  have ha : a < xs.length := lt_trans hab hb
  have l1 : (xs.take a).length = a := by rw [List.length_take]; omega
  have l3 : ((xs.drop (a + 1)).take (b - (a + 1))).length = b - (a + 1) := by
    rw [List.length_take, List.length_drop]; omega
  conv_lhs => rw [list_decomp_two xs a b hab hb]
  rw [filterIdxFrom_append]
  have o4 : 0 + (xs.take a ++ [xs[a]] ++ (xs.drop (a + 1)).take (b - (a + 1)) ++
      [xs[b]]).length = b + 1 := by
    simp only [List.length_append, List.length_singleton, l1, l3]; omega
  rw [o4, filterIdxFrom_append]
  have o3 : 0 + (xs.take a ++ [xs[a]] ++ (xs.drop (a + 1)).take (b - (a + 1))).length =
      b := by
    simp only [List.length_append, List.length_singleton, l1, l3]; omega
  rw [o3, filterIdxFrom_append]
  have o2 : 0 + (xs.take a ++ [xs[a]]).length = a + 1 := by
    simp only [List.length_append, List.length_singleton, l1]; omega
  rw [o2, filterIdxFrom_append]
  have o1 : 0 + (xs.take a).length = a := by rw [l1]; omega
  rw [o1]
  rw [filterIdxFrom_all_keep _ (xs.take a) 0 (by
    intro i hi1 hi2
    rw [Nat.zero_add, l1] at hi2
    simp only [decide_eq_true_eq]
    omega)]
  rw [filterIdxFrom_single_drop _ _ a (by
    simp only [decide_eq_false_iff_not]
    omega)]
  rw [filterIdxFrom_all_keep _ ((xs.drop (a + 1)).take (b - (a + 1))) (a + 1) (by
    intro i hi1 hi2
    rw [l3] at hi2
    simp only [decide_eq_true_eq]
    omega)]
  rw [filterIdxFrom_single_drop _ _ b (by
    simp only [decide_eq_false_iff_not]
    omega)]
  rw [filterIdxFrom_all_keep _ (xs.drop (b + 1)) (b + 1) (by
    intro i hi1 hi2
    simp only [decide_eq_true_eq]
    omega)]
  simp only [List.append_nil]

theorem removeTwo_perm (xs : List α) (a b : Nat) (hab : a < b) (hb : b < xs.length) :
    xs.Perm (xs[a] :: xs[b] ::
      filterIdxFrom (fun i => decide (i ≠ a ∧ i ≠ b)) 0 xs) := by
  rw [filterTwo_eq xs a b hab hb]
  conv_lhs => rw [list_decomp_two xs a b hab hb]
  rw [← Multiset.coe_eq_coe]
  simp only [← Multiset.coe_add, ← Multiset.cons_coe, ← Multiset.singleton_add]
  abel

theorem perm_cons_extract (xs : List α) (l : Nat) (hl : l < xs.length) :
    xs.Perm (xs[l] :: (xs.take l ++ xs.drop (l + 1))) := by
  conv_lhs => rw [← List.take_append_drop l xs, List.drop_eq_getElem_cons hl]
  rw [← Multiset.coe_eq_coe]
  simp only [← Multiset.coe_add, ← Multiset.cons_coe, ← Multiset.singleton_add]
  abel

theorem mapIdx_id_eq (xs : List α) : xs.mapIdx (fun _ g => g) = xs := by
  induction xs with
  | nil => simp
  | cons a t ih => rw [List.mapIdx_cons, ih]

theorem mapIdx_ite_update (xs : List α) (l : Nat) (hl : l < xs.length) (f : α → α) :
    xs.mapIdx (fun i g => if i = l then f g else g) =
      xs.take l ++ f xs[l] :: xs.drop (l + 1) := by
  induction xs generalizing l with
  | nil => simp at hl
  | cons a t ih =>
    rw [List.mapIdx_cons]
    match l with
    | 0 =>
      simp only [if_pos rfl]
      have hfun : (fun (i : Nat) g => if i + 1 = 0 then f g else g) = fun _ g => g := by
        funext i g
        simp
      rw [hfun, mapIdx_id_eq]
      simp
    | m + 1 =>
      have hm : m < t.length := by simpa using hl
      simp only [if_neg (Nat.succ_ne_zero m).symm]
      have hfun : (fun (i : Nat) g => if i + 1 = m + 1 then f g else g) =
          fun i g => if i = m then f g else g := by
        funext i g
        rcases eq_or_ne i m with rfl | h
        · simp
        · simp [h]
      rw [hfun, ih m hm]
      simp

theorem covering_pos_unique (groups : List ImageGroup) (segmentCount : Int)
    (hinv : groupsInvariant groups segmentCount) (p : Int) (i j : Nat)
    (hi : i < groups.length) (hj : j < groups.length)
    (hci : coversIdx groups[i] p) (hcj : coversIdx groups[j] p) : i = j := by
  obtain ⟨_, hp⟩ := hinv
  rw [List.pairwise_iff_getElem] at hp
  rcases Nat.lt_trichotomy i j with h | h | h
  · have hd := hp i j hi hj h
    unfold disjointG at hd
    unfold coversIdx at hci hcj
    omega
  · exact h
  · have hd := hp j i hj hi h
    unfold disjointG at hd
    unfold coversIdx at hci hcj
    omega

theorem neighbor_findIdx (groups : List ImageGroup) (segmentsLength : Int)
    (hinv : groupsInvariant groups segmentsLength) (p : ImageGroup → Bool) (pt : Int)
    (hpt : ∀ g ∈ groups, p g = true → coversIdx g pt)
    (gl : ImageGroup) (hmem : gl ∈ groups) (hpgl : p gl = true) :
    ∃ l, ∃ hl : l < groups.length, groups.findIdx? p = some l ∧ groups[l] = gl := by
  have hsome : (groups.findIdx? p).isSome := by
    rw [List.findIdx?_isSome, List.any_eq_true]
    exact ⟨gl, hmem, hpgl⟩
  obtain ⟨l, hfl⟩ := Option.isSome_iff_exists.mp hsome
  obtain ⟨hl, hpl, _⟩ := List.findIdx?_eq_some_iff_getElem.mp hfl
  obtain ⟨pl, hpl2, hgl⟩ := List.mem_iff_getElem.mp hmem
  have hcov_l : coversIdx groups[l] pt := hpt _ (List.getElem_mem hl) hpl
  have hcov_pl : coversIdx groups[pl] pt := by
    refine hpt _ (List.getElem_mem hpl2) ?_
    rw [hgl]
    exact hpgl
  have hplvl : pl = l :=
    covering_pos_unique groups segmentsLength hinv pt pl l hpl2 hl hcov_pl hcov_l
  refine ⟨l, hl, hfl, ?_⟩
  subst hplvl
  exact hgl

/-- C3: with no group covering the in-range target index, on an
invariant-satisfying collection `mergeImageGroupsOnInsert` follows the
adjacency-merge policy: with both a left neighbour (same version, end =
target-1) and a right neighbour (same version, start = target+1) present it
removes both and appends one merged group spanning leftStart..rightEnd;
with only a left neighbour it extends its end to the target; with only a
right neighbour it extends its start; with neither it appends the
singleton `[target, target]`.  The final conjunct is the literal
`[0,0]`/`[2,3]` merge scenario. -/
theorem mergeImageGroupsOnInsert_adjacency (groups : List ImageGroup) (segmentIndex : Int)
    (imageVersionId imageId : String) (segmentsLength : Int)
    (hinv : groupsInvariant groups segmentsLength)
    (h0 : 0 ≤ segmentIndex) (h1 : segmentIndex < segmentsLength)
    (hnc : ∀ g ∈ groups, ¬ coversIdx g segmentIndex) :
    (∀ gl ∈ groups, gl.imageVersionId = imageVersionId →
      gl.segmentIndexEnd = segmentIndex - 1 →
      ∀ gr ∈ groups, gr.imageVersionId = imageVersionId →
      gr.segmentIndexStart = segmentIndex + 1 →
      (mergeImageGroupsOnInsert groups segmentIndex imageVersionId imageId
        segmentsLength).merged = some true ∧
      ∃ rest, groups.Perm (gl :: gr :: rest) ∧
        (mergeImageGroupsOnInsert groups segmentIndex imageVersionId imageId
          segmentsLength).groups.Perm
          (⟨imageVersionId, imageId, gl.segmentIndexStart, gr.segmentIndexEnd⟩ :: rest)) ∧
    (∀ gl ∈ groups, gl.imageVersionId = imageVersionId →
      gl.segmentIndexEnd = segmentIndex - 1 →
      (∀ g ∈ groups, ¬ (g.imageVersionId = imageVersionId ∧
        g.segmentIndexStart = segmentIndex + 1)) →
      (mergeImageGroupsOnInsert groups segmentIndex imageVersionId imageId
        segmentsLength).merged = some true ∧
      ∃ rest, groups.Perm (gl :: rest) ∧
        (mergeImageGroupsOnInsert groups segmentIndex imageVersionId imageId
          segmentsLength).groups.Perm
          ({ gl with segmentIndexEnd := segmentIndex } :: rest)) ∧
    (∀ gr ∈ groups, gr.imageVersionId = imageVersionId →
      gr.segmentIndexStart = segmentIndex + 1 →
      (∀ g ∈ groups, ¬ (g.imageVersionId = imageVersionId ∧
        g.segmentIndexEnd = segmentIndex - 1)) →
      (mergeImageGroupsOnInsert groups segmentIndex imageVersionId imageId
        segmentsLength).merged = some true ∧
      ∃ rest, groups.Perm (gr :: rest) ∧
        (mergeImageGroupsOnInsert groups segmentIndex imageVersionId imageId
          segmentsLength).groups.Perm
          ({ gr with segmentIndexStart := segmentIndex } :: rest)) ∧
    ((∀ g ∈ groups, ¬ (g.imageVersionId = imageVersionId ∧
        g.segmentIndexEnd = segmentIndex - 1) ∧
      ¬ (g.imageVersionId = imageVersionId ∧
        g.segmentIndexStart = segmentIndex + 1)) →
      mergeImageGroupsOnInsert groups segmentIndex imageVersionId imageId segmentsLength =
        ⟨groups ++ [⟨imageVersionId, imageId, segmentIndex, segmentIndex⟩],
          some false, none⟩) ∧
    mergeImageGroupsOnInsert [⟨"A", "a", 0, 0⟩, ⟨"A", "a", 2, 3⟩] 1 "A" "a" 4 =
      ⟨[⟨"A", "a", 0, 3⟩], some true, none⟩ := by
  have hguard : ¬(segmentIndex < 0 ∨ segmentsLength ≤ segmentIndex) := by omega
  have hfindNone : groups.find? (fun g =>
      decide (g.segmentIndexStart ≤ segmentIndex ∧ segmentIndex ≤ g.segmentIndexEnd)) =
      none := by
    rw [List.find?_eq_none]
    intro x hx
    simpa [coversIdx] using hnc x hx
  have hptL : ∀ g ∈ groups, (fun g => decide (g.imageVersionId = imageVersionId ∧
      g.segmentIndexEnd = segmentIndex - 1)) g = true →
      coversIdx g (segmentIndex - 1) := by
    intro g hg hp
    simp only [decide_eq_true_eq] at hp
    obtain ⟨b1, b2, b3⟩ := hinv.1 g hg
    exact ⟨by omega, by omega⟩
  have hptR : ∀ g ∈ groups, (fun g => decide (g.imageVersionId = imageVersionId ∧
      g.segmentIndexStart = segmentIndex + 1)) g = true →
      coversIdx g (segmentIndex + 1) := by
    intro g hg hp
    simp only [decide_eq_true_eq] at hp
    obtain ⟨b1, b2, b3⟩ := hinv.1 g hg
    exact ⟨by omega, by omega⟩
  refine ⟨?_, ?_, ?_, ?_, by decide⟩
  · intro gl hglmem hv1 hv2 gr hgrmem hw1 hw2
    obtain ⟨l, hl, hfL, hglL⟩ := neighbor_findIdx groups segmentsLength hinv _
      (segmentIndex - 1) hptL gl hglmem
      (by simp only [decide_eq_true_eq]; exact ⟨hv1, hv2⟩)
    obtain ⟨r, hr, hfR, hgrR⟩ := neighbor_findIdx groups segmentsLength hinv _
      (segmentIndex + 1) hptR gr hgrmem
      (by simp only [decide_eq_true_eq]; exact ⟨hw1, hw2⟩)
    have hlr : l ≠ r := by
      intro heq
      have hgg : gl = gr := by
        subst heq
        rw [← hglL, ← hgrR]
      obtain ⟨b1, b2, b3⟩ := hinv.1 gl hglmem
      have h5 : gl.segmentIndexStart = segmentIndex + 1 := by rw [hgg]; exact hw2
      omega
    have hReq : mergeImageGroupsOnInsert groups segmentIndex imageVersionId imageId
        segmentsLength =
        ⟨filterIdxFrom (fun i => decide (i ≠ l ∧ i ≠ r)) 0 groups ++
          [⟨imageVersionId, imageId, (groups.getD l default).segmentIndexStart,
            (groups.getD r default).segmentIndexEnd⟩], some true, none⟩ := by
      simp only [mergeImageGroupsOnInsert]
      rw [if_neg hguard]
      simp only [hfindNone, hfL, hfR]
      rw [if_pos hlr]
    have hgetl : groups.getD l default = gl := by
      rw [List.getD_eq_getElem _ _ hl, hglL]
    have hgetr : groups.getD r default = gr := by
      rw [List.getD_eq_getElem _ _ hr, hgrR]
    rw [hReq]
    refine ⟨rfl, filterIdxFrom (fun i => decide (i ≠ l ∧ i ≠ r)) 0 groups, ?_, ?_⟩
    · rcases Nat.lt_or_ge l r with hlt | hge
      · have hperm := removeTwo_perm groups l r hlt hr
        rw [hglL, hgrR] at hperm
        exact hperm
      · have hrl : r < l := by omega
        have hperm := removeTwo_perm groups r l hrl hl
        rw [hgrR, hglL] at hperm
        have hcomm : (fun i => decide (i ≠ r ∧ i ≠ l)) =
            (fun i => decide (i ≠ l ∧ i ≠ r)) := by
          funext i
          exact decide_eq_decide.mpr and_comm
        rw [hcomm] at hperm
        exact hperm.trans (List.Perm.swap gl gr _)
    · rw [hgetl, hgetr]
      exact List.perm_append_singleton _ _
  · intro gl hglmem hv1 hv2 hnoright
    obtain ⟨l, hl, hfL, hglL⟩ := neighbor_findIdx groups segmentsLength hinv _
      (segmentIndex - 1) hptL gl hglmem
      (by simp only [decide_eq_true_eq]; exact ⟨hv1, hv2⟩)
    have hfR : groups.findIdx? (fun g => decide (g.imageVersionId = imageVersionId ∧
        g.segmentIndexStart = segmentIndex + 1)) = none := by
      rw [List.findIdx?_eq_none_iff]
      intro g hg
      simp only [decide_eq_false_iff_not]
      exact hnoright g hg
    have hReq : mergeImageGroupsOnInsert groups segmentIndex imageVersionId imageId
        segmentsLength =
        ⟨groups.mapIdx (fun i g =>
          if i = l then { g with segmentIndexEnd := segmentIndex } else g),
          some true, none⟩ := by
      simp only [mergeImageGroupsOnInsert]
      rw [if_neg hguard]
      simp only [hfindNone, hfL, hfR]
    rw [hReq]
    refine ⟨rfl, groups.take l ++ groups.drop (l + 1), ?_, ?_⟩
    · have hperm := perm_cons_extract groups l hl
      rw [hglL] at hperm
      exact hperm
    · rw [mapIdx_ite_update groups l hl, hglL]
      exact List.perm_middle
  · intro gr hgrmem hw1 hw2 hnoleft
    obtain ⟨r, hr, hfR, hgrR⟩ := neighbor_findIdx groups segmentsLength hinv _
      (segmentIndex + 1) hptR gr hgrmem
      (by simp only [decide_eq_true_eq]; exact ⟨hw1, hw2⟩)
    have hfL : groups.findIdx? (fun g => decide (g.imageVersionId = imageVersionId ∧
        g.segmentIndexEnd = segmentIndex - 1)) = none := by
      rw [List.findIdx?_eq_none_iff]
      intro g hg
      simp only [decide_eq_false_iff_not]
      exact hnoleft g hg
    have hReq : mergeImageGroupsOnInsert groups segmentIndex imageVersionId imageId
        segmentsLength =
        ⟨groups.mapIdx (fun i g =>
          if i = r then { g with segmentIndexStart := segmentIndex } else g),
          some true, none⟩ := by
      simp only [mergeImageGroupsOnInsert]
      rw [if_neg hguard]
      simp only [hfindNone, hfL, hfR]
    rw [hReq]
    refine ⟨rfl, groups.take r ++ groups.drop (r + 1), ?_, ?_⟩
    · have hperm := perm_cons_extract groups r hr
      rw [hgrR] at hperm
      exact hperm
    · rw [mapIdx_ite_update groups r hr, hgrR]
      exact List.perm_middle
  · intro hno
    have hfL : groups.findIdx? (fun g => decide (g.imageVersionId = imageVersionId ∧
        g.segmentIndexEnd = segmentIndex - 1)) = none := by
      rw [List.findIdx?_eq_none_iff]
      intro g hg
      simp only [decide_eq_false_iff_not]
      exact (hno g hg).1
    have hfR : groups.findIdx? (fun g => decide (g.imageVersionId = imageVersionId ∧
        g.segmentIndexStart = segmentIndex + 1)) = none := by
      rw [List.findIdx?_eq_none_iff]
      intro g hg
      simp only [decide_eq_false_iff_not]
      exact (hno g hg).2
    simp only [mergeImageGroupsOnInsert]
    rw [if_neg hguard]
    simp only [hfindNone, hfL, hfR]

theorem mergeImageGroupsOnInsert_adjacency_witness :
    (mergeImageGroupsOnInsert [⟨"A", "a", 0, 0⟩, ⟨"A", "a", 2, 3⟩] 1 "A" "a" 4).merged =
      some true :=
  ((mergeImageGroupsOnInsert_adjacency [⟨"A", "a", 0, 0⟩, ⟨"A", "a", 2, 3⟩] 1 "A" "a" 4
      (by decide) (by decide) (by decide) (by decide)).1
    ⟨"A", "a", 0, 0⟩ (by decide) rfl (by decide)
    ⟨"A", "a", 2, 3⟩ (by decide) rfl (by decide)).1

/- ### Chain machinery for the slot-rebuild invariant (C1) -/

/-- The emitted groups form an ordered chain: starts bounded below by `lo`,
each group well-formed, each next group starting after the previous end. -/
def chainOK : Int → List ImageGroup → Prop
  | _, [] => True
  | lo, g :: rest => lo ≤ g.segmentIndexStart ∧
      g.segmentIndexStart ≤ g.segmentIndexEnd ∧ chainOK (g.segmentIndexEnd + 1) rest

/-- Lower bound for the next group allowed after a chain: `lo` for the
empty chain, otherwise one past the last group's end. -/
def afterEndFrom (lo : Int) : List ImageGroup → Int
  | [] => lo
  | g :: rest => afterEndFrom (g.segmentIndexEnd + 1) rest

theorem afterEndFrom_snoc (lo : Int) (init : List ImageGroup) (x : ImageGroup) :
    afterEndFrom lo (init ++ [x]) = x.segmentIndexEnd + 1 := by
  induction init generalizing lo with
  | nil => rfl
  | cons a t ih => exact ih (a.segmentIndexEnd + 1)

theorem chainOK_bounds (gs : List ImageGroup) (lo : Int) (h : chainOK lo gs) :
    ∀ g ∈ gs, lo ≤ g.segmentIndexStart ∧ g.segmentIndexStart ≤ g.segmentIndexEnd := by
  induction gs generalizing lo with
  | nil => intro g hg; simp at hg
  | cons a t ih =>
    obtain ⟨h1, h2, h3⟩ := h
    intro g hg
    rcases List.mem_cons.mp hg with rfl | hg2
    · exact ⟨h1, h2⟩
    · have := ih (a.segmentIndexEnd + 1) h3 g hg2
      exact ⟨by omega, this.2⟩

theorem chainOK_pairwise (gs : List ImageGroup) (lo : Int) (h : chainOK lo gs) :
    List.Pairwise disjointG gs := by
  induction gs generalizing lo with
  | nil => exact List.Pairwise.nil
  | cons a t ih =>
    obtain ⟨h1, h2, h3⟩ := h
    refine List.Pairwise.cons ?_ (ih (a.segmentIndexEnd + 1) h3)
    intro g hg
    have := chainOK_bounds t (a.segmentIndexEnd + 1) h3 g hg
    unfold disjointG
    omega

theorem chainOK_snoc (lo : Int) (acc : List ImageGroup) (g : ImageGroup)
    (h : chainOK lo acc) (hg1 : afterEndFrom lo acc ≤ g.segmentIndexStart)
    (hg2 : g.segmentIndexStart ≤ g.segmentIndexEnd) :
    chainOK lo (acc ++ [g]) := by
  induction acc generalizing lo with
  | nil => exact ⟨hg1, hg2, trivial⟩
  | cons a t ih =>
    obtain ⟨h1, h2, h3⟩ := h
    exact ⟨h1, h2, ih (a.segmentIndexEnd + 1) h3 hg1⟩

theorem chainOK_replaceLast (lo : Int) (init : List ImageGroup) (last : ImageGroup)
    (h : chainOK lo (init ++ [last])) (newEnd : Int)
    (hnew : last.segmentIndexEnd ≤ newEnd) :
    chainOK lo (init ++ [{ last with segmentIndexEnd := newEnd }]) := by
  induction init generalizing lo with
  | nil =>
    obtain ⟨h1, h2, _⟩ := h
    exact ⟨h1, by simpa using le_trans h2 hnew, trivial⟩
  | cons a t ih =>
    obtain ⟨h1, h2, h3⟩ := h
    exact ⟨h1, h2, ih (a.segmentIndexEnd + 1) h3⟩

/- ### Lengths of the slot-array pipeline (C1) -/

theorem writeGroupSlots_length (slots : List (Option Nat)) (idx : Nat) (g : ImageGroup) :
    (writeGroupSlots slots idx g).length = slots.length := by
  unfold writeGroupSlots
  exact List.length_mapIdx

theorem buildSlots_length (groups : List ImageGroup) (len : Nat) :
    (buildSlots groups len).length = len := by
  unfold buildSlots
  have : ∀ (ps : List (Nat × ImageGroup)) (init : List (Option Nat)),
      (ps.foldl (fun slots p => writeGroupSlots slots p.1 p.2) init).length =
        init.length := by
    intro ps
    induction ps with
    | nil => intro init; rfl
    | cons q qs ih =>
      intro init
      rw [List.foldl_cons, ih, writeGroupSlots_length]
  rw [this, List.length_replicate]

theorem jsIndex_le (n : Nat) (i : Int) : jsIndex n i ≤ n := by
  unfold jsIndex
  split_ifs with h
  · omega
  · omega

theorem jsSpliceInsert_length (xs block : List α) (s : Int) :
    (jsSpliceInsert xs s block).length = xs.length + block.length := by
  have := jsIndex_le xs.length s
  simp only [jsSpliceInsert, List.length_append, List.length_take, List.length_drop]
  omega

theorem rebuildAux_chain (groups : List ImageGroup) (rem : List (Option Nat)) :
    ∀ (i : Nat) (cur st : Option Nat) (acc : List ImageGroup),
    chainOK 0 acc →
    (∀ g ∈ acc, g.segmentIndexEnd < (i : Int)) →
    ((cur = none ∧ st = none ∧ afterEndFrom 0 acc ≤ (i : Int)) ∨
      (∃ c s, cur = some c ∧ st = some s ∧ afterEndFrom 0 acc ≤ (s : Int) ∧ s < i)) →
    chainOK 0 (rebuildAux groups rem i cur st acc) ∧
      ∀ g ∈ rebuildAux groups rem i cur st acc,
        g.segmentIndexEnd < (i : Int) + rem.length := by
  induction rem with
  | nil =>
    intro i cur st acc hacc hbnd hstate
    rcases hstate with ⟨rfl, rfl, hle⟩ | ⟨c, s, rfl, rfl, hle, hsi⟩
    · refine ⟨hacc, ?_⟩
      intro g hg
      have := hbnd g hg
      simp only [List.length_nil, Nat.cast_zero]
      omega
    · have hemit : rebuildAux groups [] i (some c) (some s) acc =
          acc ++ [⟨(groups.getD c default).imageVersionId,
            (groups.getD c default).imageId, (s : Int), ((i - 1 : Nat) : Int)⟩] := rfl
      rw [hemit]
      constructor
      · refine chainOK_snoc 0 acc _ hacc hle ?_
        show (s : Int) ≤ ((i - 1 : Nat) : Int)
        omega
      · intro g hg
        simp only [List.length_nil, Nat.cast_zero]
        rcases List.mem_append.mp hg with hg2 | hg2
        · have := hbnd g hg2
          omega
        · simp only [List.mem_singleton] at hg2
          subst hg2
          show ((i - 1 : Nat) : Int) < (i : Int) + 0
          omega
  | cons slot rest ih =>
    intro i cur st acc hacc hbnd hstate
    have hlen : ((slot :: rest).length : Int) = (rest.length : Int) + 1 := by
      simp only [List.length_cons]
      omega
    by_cases hslot : slot = cur
    · have heq : rebuildAux groups (slot :: rest) i cur st acc =
          rebuildAux groups rest (i + 1) cur st acc := by
        simp only [rebuildAux, if_pos hslot]
      rw [heq]
      have hstate2 : (cur = none ∧ st = none ∧ afterEndFrom 0 acc ≤ ((i + 1 : Nat) : Int)) ∨
          (∃ c s, cur = some c ∧ st = some s ∧ afterEndFrom 0 acc ≤ (s : Int) ∧
            s < i + 1) := by
        rcases hstate with ⟨h1, h2, h3⟩ | ⟨c, s, h1, h2, h3, h4⟩
        · exact Or.inl ⟨h1, h2, by omega⟩
        · exact Or.inr ⟨c, s, h1, h2, h3, by omega⟩
      obtain ⟨hc, hb⟩ := ih (i + 1) cur st acc hacc
        (fun g hg => by have := hbnd g hg; omega) hstate2
      refine ⟨hc, ?_⟩
      intro g hg
      have := hb g hg
      rw [hlen]
      omega
    · rcases slot with _ | c2
      · -- slot = none and slot ≠ cur, so cur = some c (given the state link)
        rcases hstate with ⟨rfl, _, _⟩ | ⟨c, s, rfl, rfl, hle, hsi⟩
        · exact absurd rfl hslot
        · have heq : rebuildAux groups (none :: rest) i (some c) (some s) acc =
              rebuildAux groups rest (i + 1) none none
                (acc ++ [⟨(groups.getD c default).imageVersionId,
                  (groups.getD c default).imageId, (s : Int), ((i - 1 : Nat) : Int)⟩]) := by
            simp only [rebuildAux, if_neg hslot, Option.isSome_none, Bool.false_eq_true,
              if_false]
          rw [heq]
          have hchain2 : chainOK 0 (acc ++ [⟨(groups.getD c default).imageVersionId,
              (groups.getD c default).imageId, (s : Int), ((i - 1 : Nat) : Int)⟩]) := by
            refine chainOK_snoc 0 acc _ hacc hle ?_
            show (s : Int) ≤ ((i - 1 : Nat) : Int)
            omega
          have hafter : afterEndFrom 0 (acc ++ [⟨(groups.getD c default).imageVersionId,
              (groups.getD c default).imageId, (s : Int), ((i - 1 : Nat) : Int)⟩]) =
              ((i - 1 : Nat) : Int) + 1 := afterEndFrom_snoc 0 acc _
          have hbnd2 : ∀ g ∈ acc ++ [⟨(groups.getD c default).imageVersionId,
              (groups.getD c default).imageId, (s : Int), ((i - 1 : Nat) : Int)⟩],
              g.segmentIndexEnd < ((i + 1 : Nat) : Int) := by
            intro g hg
            rcases List.mem_append.mp hg with hg2 | hg2
            · have := hbnd g hg2
              omega
            · simp only [List.mem_singleton] at hg2
              subst hg2
              show ((i - 1 : Nat) : Int) < ((i + 1 : Nat) : Int)
              omega
          obtain ⟨hc, hb⟩ := ih (i + 1) none none _ hchain2 hbnd2
            (Or.inl ⟨rfl, rfl, by rw [hafter]; omega⟩)
          refine ⟨hc, ?_⟩
          intro g hg
          have := hb g hg
          rw [hlen]
          omega
      · -- slot = some c2: a new run starts at i
        rcases hstate with ⟨rfl, rfl, hle⟩ | ⟨c, s, rfl, rfl, hle, hsi⟩
        · have heq : rebuildAux groups (some c2 :: rest) i none none acc =
              rebuildAux groups rest (i + 1) (some c2) (some i) acc := by
            simp only [rebuildAux, if_neg hslot, Option.isSome_some, if_true]
          rw [heq]
          obtain ⟨hc, hb⟩ := ih (i + 1) (some c2) (some i) acc hacc
            (fun g hg => by have := hbnd g hg; omega)
            (Or.inr ⟨c2, i, rfl, rfl, hle, by omega⟩)
          refine ⟨hc, ?_⟩
          intro g hg
          have := hb g hg
          rw [hlen]
          omega
        · have heq : rebuildAux groups (some c2 :: rest) i (some c) (some s) acc =
              rebuildAux groups rest (i + 1) (some c2) (some i)
                (acc ++ [⟨(groups.getD c default).imageVersionId,
                  (groups.getD c default).imageId, (s : Int), ((i - 1 : Nat) : Int)⟩]) := by
            simp only [rebuildAux, if_neg hslot, Option.isSome_some, if_true]
          rw [heq]
          have hchain2 : chainOK 0 (acc ++ [⟨(groups.getD c default).imageVersionId,
              (groups.getD c default).imageId, (s : Int), ((i - 1 : Nat) : Int)⟩]) := by
            refine chainOK_snoc 0 acc _ hacc hle ?_
            show (s : Int) ≤ ((i - 1 : Nat) : Int)
            omega
          have hafter : afterEndFrom 0 (acc ++ [⟨(groups.getD c default).imageVersionId,
              (groups.getD c default).imageId, (s : Int), ((i - 1 : Nat) : Int)⟩]) =
              ((i - 1 : Nat) : Int) + 1 := afterEndFrom_snoc 0 acc _
          have hbnd2 : ∀ g ∈ acc ++ [⟨(groups.getD c default).imageVersionId,
              (groups.getD c default).imageId, (s : Int), ((i - 1 : Nat) : Int)⟩],
              g.segmentIndexEnd < ((i + 1 : Nat) : Int) := by
            intro g hg
            rcases List.mem_append.mp hg with hg2 | hg2
            · have := hbnd g hg2
              omega
            · simp only [List.mem_singleton] at hg2
              subst hg2
              show ((i - 1 : Nat) : Int) < ((i + 1 : Nat) : Int)
              omega
          obtain ⟨hc, hb⟩ := ih (i + 1) (some c2) (some i) _ hchain2 hbnd2
            (Or.inr ⟨c2, i, rfl, rfl, by rw [hafter]; omega, by omega⟩)
          refine ⟨hc, ?_⟩
          intro g hg
          have := hb g hg
          rw [hlen]
          omega

theorem coalesce_chain (L : Int) (input : List ImageGroup) :
    ∀ (acc : List ImageGroup),
    chainOK 0 acc → chainOK (afterEndFrom 0 acc) input →
    (∀ g ∈ acc, g.segmentIndexEnd < L) → (∀ g ∈ input, g.segmentIndexEnd < L) →
    chainOK 0 (input.foldl coalesceStep acc) ∧
      ∀ g ∈ input.foldl coalesceStep acc, g.segmentIndexEnd < L := by
  induction input with
  | nil =>
    intro acc h1 _ h3 _
    exact ⟨h1, h3⟩
  | cons g rest ih =>
    intro acc hacc hchain hb1 hb2
    obtain ⟨hg1, hg2, hg3⟩ := hchain
    rw [List.foldl_cons]
    rcases hlast : acc.getLast? with _ | last
    · have hacc0 : acc = [] := List.getLast?_eq_none_iff.mp hlast
      subst hacc0
      have hstep : coalesceStep [] g = [g] := by
        simp [coalesceStep]
      rw [hstep]
      refine ih [g] ⟨hg1, hg2, trivial⟩ hg3 ?_
        (fun x hx => hb2 x (List.mem_cons_of_mem _ hx))
      intro x hx
      simp only [List.mem_singleton] at hx
      subst hx
      exact hb2 x (List.mem_cons_self x rest)
    · have hne : acc ≠ [] := by
        intro h
        rw [h] at hlast
        simp at hlast
      have hdecomp : acc.dropLast ++ [last] = acc := by
        have hg := List.getLast?_eq_getLast acc hne
        rw [hlast] at hg
        have hlg : last = acc.getLast hne := by
          injection hg
        rw [hlg]
        exact List.dropLast_append_getLast hne
      have hafter : afterEndFrom 0 acc = last.segmentIndexEnd + 1 := by
        conv_lhs => rw [← hdecomp]
        exact afterEndFrom_snoc 0 _ _
      by_cases hv : last.imageVersionId = g.imageVersionId
      · have hstep : coalesceStep acc g =
            acc.dropLast ++ [{ last with segmentIndexEnd := g.segmentIndexEnd }] := by
          simp [coalesceStep, hlast, hv]
        rw [hstep]
        have hle : last.segmentIndexEnd ≤ g.segmentIndexEnd := by
          rw [hafter] at hg1
          omega
        have hchain2 : chainOK 0
            (acc.dropLast ++ [{ last with segmentIndexEnd := g.segmentIndexEnd }]) := by
          refine chainOK_replaceLast 0 acc.dropLast last ?_ _ hle
          rw [hdecomp]
          exact hacc
        have hafter2 : afterEndFrom 0
            (acc.dropLast ++ [{ last with segmentIndexEnd := g.segmentIndexEnd }]) =
            g.segmentIndexEnd + 1 := afterEndFrom_snoc 0 _ _
        refine ih _ hchain2 ?_ ?_ (fun x hx => hb2 x (List.mem_cons_of_mem _ hx))
        · rw [hafter2]
          exact hg3
        · intro x hx
          rcases List.mem_append.mp hx with h2 | h2
          · exact hb1 x ((List.dropLast_sublist acc).subset h2)
          · simp only [List.mem_singleton] at h2
            subst h2
            show g.segmentIndexEnd < L
            exact hb2 g (List.mem_cons_self g rest)
      · have hstep : coalesceStep acc g = acc ++ [g] := by
          simp [coalesceStep, hlast, hv]
        rw [hstep]
        have hchain2 : chainOK 0 (acc ++ [g]) := chainOK_snoc 0 acc g hacc hg1 hg2
        have hafter2 : afterEndFrom 0 (acc ++ [g]) = g.segmentIndexEnd + 1 :=
          afterEndFrom_snoc 0 _ _
        refine ih _ hchain2 ?_ ?_ (fun x hx => hb2 x (List.mem_cons_of_mem _ hx))
        · rw [hafter2]
          exact hg3
        · intro x hx
          rcases List.mem_append.mp hx with h2 | h2
          · exact hb1 x h2
          · simp only [List.mem_singleton] at h2
            subst h2
            exact hb2 x (List.mem_cons_self x rest)

/- ### Merge-on-insert invariant preservation (C1) -/

theorem disjointG_symm : ∀ {a b : ImageGroup}, disjointG a b → disjointG b a := by
  intro a b h
  unfold disjointG at h ⊢
  omega

theorem filterIdxFrom_sublist (p : Nat → Bool) (xs : List α) (s : Nat) :
    (filterIdxFrom p s xs).Sublist xs := by
  induction xs generalizing s with
  | nil => exact List.Sublist.refl []
  | cons a t ih =>
    by_cases h : p s
    · have e : filterIdxFrom p s (a :: t) = a :: filterIdxFrom p (s + 1) t := by
        show (if p s then a :: filterIdxFrom p (s + 1) t
          else filterIdxFrom p (s + 1) t) = _
        rw [if_pos h]
      rw [e]
      exact List.Sublist.cons₂ a (ih (s + 1))
    · have e : filterIdxFrom p s (a :: t) = filterIdxFrom p (s + 1) t := by
        show (if p s then a :: filterIdxFrom p (s + 1) t
          else filterIdxFrom p (s + 1) t) = _
        rw [if_neg h]
      rw [e]
      exact List.Sublist.cons a (ih (s + 1))

theorem filterIdxFrom_mem_ex (p : Nat → Bool) (xs : List α) (s : Nat) (h : α)
    (hmem : h ∈ filterIdxFrom p s xs) :
    ∃ i, ∃ hi : i < xs.length, p (s + i) = true ∧ xs[i] = h := by
  induction xs generalizing s with
  | nil => simp [filterIdxFrom] at hmem
  | cons a t ih =>
    by_cases hp : p s
    · have e : filterIdxFrom p s (a :: t) = a :: filterIdxFrom p (s + 1) t := by
        show (if p s then a :: filterIdxFrom p (s + 1) t
          else filterIdxFrom p (s + 1) t) = _
        rw [if_pos hp]
      rw [e] at hmem
      rcases List.mem_cons.mp hmem with rfl | hmem2
      · exact ⟨0, by simp, by simpa using hp, rfl⟩
      · obtain ⟨i, hi, hpi, hgi⟩ := ih (s + 1) hmem2
        refine ⟨i + 1, by simpa using Nat.succ_lt_succ hi, ?_, by simpa using hgi⟩
        have : s + (i + 1) = s + 1 + i := by omega
        rw [this]
        exact hpi
    · have e : filterIdxFrom p s (a :: t) = filterIdxFrom p (s + 1) t := by
        show (if p s then a :: filterIdxFrom p (s + 1) t
          else filterIdxFrom p (s + 1) t) = _
        rw [if_neg hp]
      rw [e] at hmem
      obtain ⟨i, hi, hpi, hgi⟩ := ih (s + 1) hmem
      refine ⟨i + 1, by simpa using Nat.succ_lt_succ hi, ?_, by simpa using hgi⟩
      have : s + (i + 1) = s + 1 + i := by omega
      rw [this]
      exact hpi

theorem mergeInsert_invariant (groups : List ImageGroup) (segmentIndex : Int)
    (imageVersionId imageId : String) (segmentsLength : Int)
    (hinv : groupsInvariant groups segmentsLength) :
    groupsInvariant (mergeImageGroupsOnInsert groups segmentIndex imageVersionId imageId
      segmentsLength).groups segmentsLength := by
  by_cases hguard : segmentIndex < 0 ∨ segmentsLength ≤ segmentIndex
  · simp only [mergeImageGroupsOnInsert]
    rw [if_pos hguard]
    exact hinv
  · have hidx : 0 ≤ segmentIndex ∧ segmentIndex < segmentsLength := by omega
    rcases hfind : groups.find? (fun g =>
        decide (g.segmentIndexStart ≤ segmentIndex ∧ segmentIndex ≤ g.segmentIndexEnd))
        with _ | g₀
    case neg.some =>
      simp only [mergeImageGroupsOnInsert]
      rw [if_neg hguard]
      simp only [hfind]
      split_ifs <;> exact hinv
    case neg.none =>
    have hnc : ∀ g ∈ groups, ¬ coversIdx g segmentIndex := by
      intro g hg
      have := List.find?_eq_none.mp hfind g hg
      simpa [coversIdx] using this
    have hsym : ∀ (i j : Nat) (hi : i < groups.length) (hj : j < groups.length), i ≠ j →
        disjointG groups[i] groups[j] := by
      have hp := hinv.2
      rw [List.pairwise_iff_getElem] at hp
      intro i j hi hj hne
      rcases Nat.lt_trichotomy i j with h | h | h
      · exact hp i j hi hj h
      · exact absurd h hne
      · exact disjointG_symm (hp j i hj hi h)
    rcases hfL : groups.findIdx? (fun g => decide (g.imageVersionId = imageVersionId ∧
        g.segmentIndexEnd = segmentIndex - 1)) with _ | l
    · rcases hfR : groups.findIdx? (fun g => decide (g.imageVersionId = imageVersionId ∧
          g.segmentIndexStart = segmentIndex + 1)) with _ | r
      · -- neither neighbour: append the singleton
        simp only [mergeImageGroupsOnInsert]
        rw [if_neg hguard]
        simp only [hfind, hfL, hfR]
        constructor
        · intro g hg
          rcases List.mem_append.mp hg with hg2 | hg2
          · exact hinv.1 g hg2
          · simp only [List.mem_singleton] at hg2
            subst hg2
            exact ⟨show (0 : Int) ≤ segmentIndex by omega,
              show segmentIndex ≤ segmentIndex from le_refl _,
              show segmentIndex < segmentsLength by omega⟩
        · rw [List.pairwise_append]
          refine ⟨hinv.2, List.pairwise_singleton _ _, ?_⟩
          intro a ha b hb
          simp only [List.mem_singleton] at hb
          subst hb
          have h1 := hnc a ha
          have h2 := hinv.1 a ha
          unfold coversIdx at h1
          unfold disjointG
          show a.segmentIndexEnd < segmentIndex ∨ segmentIndex < a.segmentIndexStart
          omega
      · -- only right neighbour: extend its start to the target
        obtain ⟨hr, hpr, _⟩ := List.findIdx?_eq_some_iff_getElem.mp hfR
        simp only [decide_eq_true_eq] at hpr
        simp only [mergeImageGroupsOnInsert]
        rw [if_neg hguard]
        simp only [hfind, hfL, hfR]
        rw [mapIdx_ite_update groups r hr]
        obtain ⟨b1, b2, b3⟩ := hinv.1 groups[r] (List.getElem_mem hr)
        constructor
        · intro g hg
          rcases List.mem_append.mp hg with hg2 | hg2
          · exact hinv.1 g ((List.take_sublist r groups).subset hg2)
          · rcases List.mem_cons.mp hg2 with rfl | hg3
            · exact ⟨show (0 : Int) ≤ segmentIndex by omega,
                show segmentIndex ≤ groups[r].segmentIndexEnd by omega,
                show groups[r].segmentIndexEnd < segmentsLength from b3⟩
            · exact hinv.1 g ((List.drop_sublist (r + 1) groups).subset hg3)
        · rw [List.pairwise_middle disjointG_symm]
          refine List.Pairwise.cons ?_ ?_
          · intro h hmem
            rw [← List.eraseIdx_eq_take_drop_succ] at hmem
            obtain ⟨i, hi, hne, rfl⟩ := List.mem_eraseIdx_iff_getElem.mp hmem
            have hd := hsym r i hr hi (fun he => hne he.symm)
            have hcov := hnc groups[i] (List.getElem_mem hi)
            obtain ⟨c1, c2, c3⟩ := hinv.1 groups[i] (List.getElem_mem hi)
            unfold coversIdx at hcov
            unfold disjointG at hd
            show groups[r].segmentIndexEnd < groups[i].segmentIndexStart ∨
              groups[i].segmentIndexEnd < segmentIndex
            omega
          · rw [← List.eraseIdx_eq_take_drop_succ]
            exact List.Pairwise.sublist (List.eraseIdx_sublist groups r) hinv.2
    · obtain ⟨hl, hpl, _⟩ := List.findIdx?_eq_some_iff_getElem.mp hfL
      simp only [decide_eq_true_eq] at hpl
      obtain ⟨b1, b2, b3⟩ := hinv.1 groups[l] (List.getElem_mem hl)
      rcases hfR : groups.findIdx? (fun g => decide (g.imageVersionId = imageVersionId ∧
          g.segmentIndexStart = segmentIndex + 1)) with _ | r
      · -- only left neighbour: extend its end to the target
        simp only [mergeImageGroupsOnInsert]
        rw [if_neg hguard]
        simp only [hfind, hfL, hfR]
        rw [mapIdx_ite_update groups l hl]
        constructor
        · intro g hg
          rcases List.mem_append.mp hg with hg2 | hg2
          · exact hinv.1 g ((List.take_sublist l groups).subset hg2)
          · rcases List.mem_cons.mp hg2 with rfl | hg3
            · exact ⟨show (0 : Int) ≤ groups[l].segmentIndexStart from b1,
                show groups[l].segmentIndexStart ≤ segmentIndex by omega,
                show segmentIndex < segmentsLength by omega⟩
            · exact hinv.1 g ((List.drop_sublist (l + 1) groups).subset hg3)
        · rw [List.pairwise_middle disjointG_symm]
          refine List.Pairwise.cons ?_ ?_
          · intro h hmem
            rw [← List.eraseIdx_eq_take_drop_succ] at hmem
            obtain ⟨i, hi, hne, rfl⟩ := List.mem_eraseIdx_iff_getElem.mp hmem
            have hd := hsym l i hl hi (fun he => hne he.symm)
            have hcov := hnc groups[i] (List.getElem_mem hi)
            obtain ⟨c1, c2, c3⟩ := hinv.1 groups[i] (List.getElem_mem hi)
            unfold coversIdx at hcov
            unfold disjointG at hd
            show segmentIndex < groups[i].segmentIndexStart ∨
              groups[i].segmentIndexEnd < groups[l].segmentIndexStart
            omega
          · rw [← List.eraseIdx_eq_take_drop_succ]
            exact List.Pairwise.sublist (List.eraseIdx_sublist groups l) hinv.2
      · -- both neighbours
        obtain ⟨hr, hpr, _⟩ := List.findIdx?_eq_some_iff_getElem.mp hfR
        simp only [decide_eq_true_eq] at hpr
        obtain ⟨c1, c2, c3⟩ := hinv.1 groups[r] (List.getElem_mem hr)
        have hlr : l ≠ r := by
          intro heq
          subst heq
          omega
        simp only [mergeImageGroupsOnInsert]
        rw [if_neg hguard]
        simp only [hfind, hfL, hfR]
        rw [if_pos hlr]
        have hgetl : groups.getD l default = groups[l] := List.getD_eq_getElem _ _ hl
        have hgetr : groups.getD r default = groups[r] := List.getD_eq_getElem _ _ hr
        rw [hgetl, hgetr]
        constructor
        · intro g hg
          rcases List.mem_append.mp hg with hg2 | hg2
          · exact hinv.1 g ((filterIdxFrom_sublist _ groups 0).subset hg2)
          · simp only [List.mem_singleton] at hg2
            subst hg2
            exact ⟨show (0 : Int) ≤ groups[l].segmentIndexStart from b1,
              show groups[l].segmentIndexStart ≤ groups[r].segmentIndexEnd by omega,
              show groups[r].segmentIndexEnd < segmentsLength from c3⟩
        · rw [List.pairwise_append]
          refine ⟨List.Pairwise.sublist (filterIdxFrom_sublist _ groups 0) hinv.2,
            List.pairwise_singleton _ _, ?_⟩
          intro a ha b hb
          simp only [List.mem_singleton] at hb
          subst hb
          obtain ⟨i, hi, hpi, rfl⟩ := filterIdxFrom_mem_ex _ groups 0 a ha
          rw [Nat.zero_add] at hpi
          simp only [decide_eq_true_eq] at hpi
          have hdl := hsym i l hi hl hpi.1
          have hdr := hsym i r hi hr hpi.2
          have hcov := hnc groups[i] (List.getElem_mem hi)
          obtain ⟨d1, d2, d3⟩ := hinv.1 groups[i] (List.getElem_mem hi)
          unfold coversIdx at hcov
          unfold disjointG at hdl hdr
          show groups[i].segmentIndexEnd < groups[l].segmentIndexStart ∨
            groups[r].segmentIndexEnd < groups[i].segmentIndexStart
          omega

/- ### Relocation invariant preservation (C1) -/

theorem moveBySlot_invariant (groups : List ImageGroup)
    (groupIndex targetStart segmentsLength : Int)
    (hinv : groupsInvariant groups segmentsLength) :
    groupsInvariant (moveImageGroupsBySlot groups groupIndex targetStart segmentsLength)
      segmentsLength := by
  by_cases h1 : segmentsLength ≤ 0
  · unfold moveImageGroupsBySlot
    rw [if_pos h1]
    exact hinv
  · by_cases h2 : groupIndex < 0 ∨ (groups.length : Int) ≤ groupIndex
    · unfold moveImageGroupsBySlot
      rw [if_neg h1, if_pos h2]
      exact hinv
    · have hlenpos : ((segmentsLength.toNat : Nat) : Int) = segmentsLength := by omega
      suffices h : ∀ S3 : List (Option Nat), S3.length = segmentsLength.toNat →
          groupsInvariant (coalesce (rebuildAux groups S3 0 none none []))
            segmentsLength by
        unfold moveImageGroupsBySlot
        rw [if_neg h1, if_neg h2]
        refine h _ ?_
        have hgi : groupIndex.toNat < groups.length := by omega
        have hactive : groups.getD groupIndex.toNat default = groups[groupIndex.toNat] :=
          List.getD_eq_getElem _ _ hgi
        obtain ⟨a1, a2, a3⟩ := hinv.1 groups[groupIndex.toNat] (List.getElem_mem hgi)
        rw [jsSpliceInsert_length]
        rw [hactive]
        unfold jsSpliceDelete jsSlice
        simp only [List.length_append, List.length_take, List.length_drop,
          buildSlots_length]
        have hjs1 : jsIndex segmentsLength.toNat groups[groupIndex.toNat].segmentIndexStart =
            groups[groupIndex.toNat].segmentIndexStart.toNat := by
          unfold jsIndex
          rw [if_neg (by omega)]
          omega
        have hjs2 : jsIndex segmentsLength.toNat
            (groups[groupIndex.toNat].segmentIndexStart +
              max 1 (groups[groupIndex.toNat].segmentIndexEnd -
                groups[groupIndex.toNat].segmentIndexStart + 1)) =
            (groups[groupIndex.toNat].segmentIndexEnd + 1).toNat := by
          unfold jsIndex
          rw [if_neg (by omega)]
          omega
        rw [hjs1, hjs2]
        omega
      intro S3 hS3
      obtain ⟨hrc, hrb⟩ := rebuildAux_chain groups S3 0 none none []
        trivial (fun g hg => absurd hg (List.not_mem_nil g))
        (Or.inl ⟨rfl, rfl, by show (0 : Int) ≤ 0; omega⟩)
      have hrb2 : ∀ g ∈ rebuildAux groups S3 0 none none [],
          g.segmentIndexEnd < segmentsLength := by
        intro g hg
        have := hrb g hg
        rw [hS3] at this
        omega
      obtain ⟨hcc, hcb⟩ := coalesce_chain segmentsLength
        (rebuildAux groups S3 0 none none []) [] trivial hrc
        (fun g hg => absurd hg (List.not_mem_nil g)) hrb2
      constructor
      · intro g hg
        have hb := chainOK_bounds _ 0 hcc g hg
        exact ⟨hb.1, hb.2, hcb g hg⟩
      · exact chainOK_pairwise _ 0 hcc

/-- C1: starting from any collection satisfying the global invariant
(pairwise non-overlapping ranges, each within `[0, segmentCount - 1]`),
every call of `mergeImageGroupsOnInsert` and every call of
`moveImageGroupsBySlot` returns a collection that satisfies the invariant
again (invalid calls return the input unchanged, so they preserve it
trivially). -/
theorem imageGroups_invariant_preserved (groups : List ImageGroup)
    (segmentIndex : Int) (imageVersionId imageId : String)
    (groupIndex targetStart segmentsLength : Int)
    (hinv : groupsInvariant groups segmentsLength) :
    groupsInvariant (mergeImageGroupsOnInsert groups segmentIndex imageVersionId imageId
      segmentsLength).groups segmentsLength ∧
    groupsInvariant (moveImageGroupsBySlot groups groupIndex targetStart segmentsLength)
      segmentsLength :=
  ⟨mergeInsert_invariant groups segmentIndex imageVersionId imageId segmentsLength hinv,
    moveBySlot_invariant groups groupIndex targetStart segmentsLength hinv⟩

theorem imageGroups_invariant_preserved_witness :
    groupsInvariant (mergeImageGroupsOnInsert [⟨"A", "a", 0, 0⟩, ⟨"A", "a", 2, 3⟩]
      1 "A" "a" 4).groups 4 ∧
    groupsInvariant (moveImageGroupsBySlot [⟨"A", "a", 0, 0⟩, ⟨"A", "a", 2, 3⟩] 0 2 4) 4 :=
  imageGroups_invariant_preserved [⟨"A", "a", 0, 0⟩, ⟨"A", "a", 2, 3⟩] 1 "A" "a" 0 2 4
    (by decide)
